import Mathlib

/-!
# Verification of the XML→JSON normalizer

Shallow embedding of the repository's conversion logic:

* `normalizeXmlJs` embeds the function `normalizeXmlJs` of the React app
  (the xml-js "compact" object → plain JSON rewriter).
* `onConvert` / `onConvertApp` embed the two `onConvert` handlers
  (the external `xml2js` / `xml2json` parsers become function parameters).
* `serialize` models `JSON.stringify(·, null, pretty ? 2 : 0)` and
  `jsonParse` models `JSON.parse`, both external library builtins used
  at the conversion boundary.

JavaScript values are embedded as `JsValue`; a JS object is a list of
key/value pairs in insertion order (JS objects have unique keys; property
assignment `out[key] = v` updates in place, keeping the key's position,
and otherwise appends — `objInsert`).
-/

/-- A JavaScript value, as far as the converter manipulates them.
Objects are insertion-ordered association lists. -/
inductive JsValue where
  | str (s : String)
  | num (n : Int)
  | bool (b : Bool)
  | null
  | undef
  | arr (elems : List JsValue)
  | obj (fields : List (String × JsValue))
deriving Repr

/-- The three reserved xml-js compact-form keys that `normalizeXmlJs`
handles explicitly and never copies through (`continue` in the JS loop). -/
def isSentinel (k : String) : Bool :=
  k = "_attributes" || k = "_text" || k = "_declaration"

/-- Attribute key production: `` prefixAttr ? `_${k}` : k ``. -/
def prefKey (prefixAttr : Bool) (k : String) : String :=
  if prefixAttr then "_" ++ k else k

/-- JS member access `node[k]` on an object: first binding, else `undefined`. -/
def jsMember : List (String × JsValue) → String → JsValue
  | [], _ => .undef
  | kv :: kvs, k => if kv.1 = k then kv.2 else jsMember kvs k

/-- JS property assignment `out[key] = v`: update in place if the key
exists (keeping its position), otherwise append. -/
def objInsert (o : List (String × JsValue)) (k : String) (v : JsValue) :
    List (String × JsValue) :=
  if o.any (fun kv => kv.1 = k) then
    o.map (fun kv => if kv.1 = k then (k, v) else kv)
  else o ++ [(k, v)]

/-- `Object.entries` on a JS array: stringified indices paired with elements. -/
def arrayEntries (xs : List JsValue) : List (String × JsValue) :=
  xs.enum.map (fun p => (toString p.1, p.2))

/-- The attribute-merging prologue of `normalizeXmlJs`:
`if (node._attributes && typeof node._attributes === 'object') { for ... out[key] = v }`.
Only objects and arrays are truthy values of typeof `object`
(`null` is falsy, so it is skipped). -/
def attrInit (prefixAttr : Bool) (kvs : List (String × JsValue)) :
    List (String × JsValue) :=
  match jsMember kvs "_attributes" with
  | .obj attrs =>
      attrs.foldl (fun acc kv => objInsert acc (prefKey prefixAttr kv.1) kv.2) []
  | .arr xs =>
      (arrayEntries xs).foldl
        (fun acc kv => objInsert acc (prefKey prefixAttr kv.1) kv.2) []
  | _ => []

mutual

/-- Embedding of `normalizeXmlJs(node, { prefixAttr })` from the app source:
arrays map recursively; an object whose key list is exactly `["_text"]`
flattens to its `_text` value; any other object is rebuilt from its
(prefixed) attributes followed by its recursively normalized non-sentinel
children; every other value is returned unchanged. -/
def normalizeXmlJs (prefixAttr : Bool) : JsValue → JsValue
  | .arr ns => .arr (normArray prefixAttr ns)
  | .obj kvs =>
      if kvs.map Prod.fst = ["_text"] then jsMember kvs "_text"
      else .obj (childLoop prefixAttr (attrInit prefixAttr kvs) kvs)
  | v => v

/-- `node.map((n) => normalizeXmlJs(n, { prefixAttr }))`. -/
def normArray (prefixAttr : Bool) : List JsValue → List JsValue
  | [] => []
  | n :: ns => normalizeXmlJs prefixAttr n :: normArray prefixAttr ns

/-- The `for (const [k, v] of Object.entries(node))` loop: skip the three
sentinel keys, otherwise `out[k] = normalizeXmlJs(v, { prefixAttr })`. -/
def childLoop (prefixAttr : Bool) (acc : List (String × JsValue)) :
    List (String × JsValue) → List (String × JsValue)
  | [] => acc
  | kv :: kvs =>
      if isSentinel kv.1 then childLoop prefixAttr acc kvs
      else childLoop prefixAttr (objInsert acc kv.1 (normalizeXmlJs prefixAttr kv.2)) kvs

end


/-! ## Shape predicates on `JsValue` -/

/-- Is this value a JS string? -/
def JsValue.isStr : JsValue → Bool
  | .str _ => true
  | _ => false

/-- Scalar pass-through values: neither an array nor a non-null object
(note JS `null` fails the `node &&` truthiness test and also passes
through; we group it with the scalars as the code effectively does). -/
def isScalar : JsValue → Bool
  | .arr _ => false
  | .obj _ => false
  | _ => true

mutual

/-- Does one of the three sentinel keys (`_attributes`, `_text`,
`_declaration`) occur as an object key anywhere in the value? -/
def containsSentinelKey : JsValue → Bool
  | .arr xs => cskList xs
  | .obj kvs => cskFields kvs
  | _ => false

/-- `containsSentinelKey` over the elements of an array. -/
def cskList : List JsValue → Bool
  | [] => false
  | x :: xs => containsSentinelKey x || cskList xs

/-- `containsSentinelKey` over object fields: a field offends if its key
is a sentinel or its value contains one. -/
def cskFields : List (String × JsValue) → Bool
  | [] => false
  | kv :: kvs => isSentinel kv.1 || containsSentinelKey kv.2 || cskFields kvs

end

/-- A single attribute binding is hazard-free: its value is a string and
its key is not a sentinel, neither bare nor after underscore-prefixing
(so neither `prefKey true k` nor `prefKey false k` is a sentinel key). -/
def attrOk (kv : String × JsValue) : Bool :=
  kv.2.isStr && !isSentinel kv.1 && !isSentinel ("_" ++ kv.1)

/-- A hazard-free `_attributes` field: either a string-valued attribute
object with hazard-free keys, or a value the code ignores (anything that
is not a truthy `typeof === 'object'` value, i.e. neither object nor
array). -/
def attrsOk : JsValue → Bool
  | .obj attrs => attrs.all attrOk
  | .arr _ => false
  | _ => true

mutual

/-- Sentinel-hazard freedom: every `_text` field holds a string, every
`_attributes` field is a hazard-free attribute map (`attrsOk`), and all
other fields and array elements are recursively hazard-free.  This is the
shape xml-js compact output actually has, unless the document uses
attributes literally named `attributes`/`text`/`declaration` (or their
underscored forms). -/
def hazardFree : JsValue → Bool
  | .arr xs => hfList xs
  | .obj kvs => hfFields kvs
  | _ => true

/-- `hazardFree` over array elements. -/
def hfList : List JsValue → Bool
  | [] => true
  | x :: xs => hazardFree x && hfList xs

/-- `hazardFree` over object fields. -/
def hfFields : List (String × JsValue) → Bool
  | [] => true
  | kv :: kvs =>
      (if kv.1 = "_text" then kv.2.isStr
       else if kv.1 = "_attributes" then attrsOk kv.2
       else if kv.1 = "_declaration" then true
       else hazardFree kv.2) && hfFields kvs

end

/-- The per-field condition of `hfFields`, as a standalone function. -/
def hfField (kv : String × JsValue) : Bool :=
  if kv.1 = "_text" then kv.2.isStr
  else if kv.1 = "_attributes" then attrsOk kv.2
  else if kv.1 = "_declaration" then true
  else hazardFree kv.2

mutual

/-- Every object in the value has pairwise-distinct keys (true of every
value that denotes a JS object tree). -/
def nodupKeys : JsValue → Bool
  | .arr xs => ndkList xs
  | .obj kvs => ndkFields kvs
  | _ => true

/-- `nodupKeys` over array elements. -/
def ndkList : List JsValue → Bool
  | [] => true
  | x :: xs => nodupKeys x && ndkList xs

/-- `nodupKeys` over object fields: the head key is fresh in the tail and
all values are recursively duplicate-free. -/
def ndkFields : List (String × JsValue) → Bool
  | [] => true
  | kv :: kvs => kvs.all (fun kv2 => kv2.1 != kv.1) && nodupKeys kv.2 && ndkFields kvs

end

mutual

/-- The spec's `NormalizedValue` domain: strings, arrays and objects only
(§3 of the spec). -/
def IsNormalizedB : JsValue → Bool
  | .str _ => true
  | .arr xs => isNormListB xs
  | .obj kvs => isNormFieldsB kvs
  | _ => false

/-- `IsNormalizedB` over array elements. -/
def isNormListB : List JsValue → Bool
  | [] => true
  | x :: xs => IsNormalizedB x && isNormListB xs

/-- `IsNormalizedB` over object field values. -/
def isNormFieldsB : List (String × JsValue) → Bool
  | [] => true
  | kv :: kvs => IsNormalizedB kv.2 && isNormFieldsB kvs

end

/-- Boolean pairwise-distinctness of a key list. -/
def strNodupB : List String → Bool
  | [] => true
  | k :: ks => ks.all (fun k2 => k2 != k) && strNodupB ks

/-! ## Serialization: model of `JSON.stringify(v, null, pretty ? 2 : 0)`

Modelled from the spec: `JSON.stringify` is an external browser builtin
(spec §4.2: pure formatting, two indentation options — compact, or
2-space pretty-printing — deterministic).  The model below follows the
ECMA-262 algorithm on the `NormalizedValue` domain (strings, arrays,
objects; scalar pass-through values are rendered in the obvious way). -/

/-- Lower-case hexadecimal digit, as emitted in `\u00XX` escapes. -/
def hexDigit (n : Nat) : Char :=
  if n < 10 then Char.ofNat (48 + n) else Char.ofNat (87 + n)

/-- JSON string-character escaping (ECMA-262 `QuoteJSONString`). -/
def escChar (c : Char) : List Char :=
  if c = '"' then ['\\', '"']
  else if c = '\\' then ['\\', '\\']
  else if c = '\x08' then ['\\', 'b']
  else if c = '\t' then ['\\', 't']
  else if c = '\n' then ['\\', 'n']
  else if c = '\x0c' then ['\\', 'f']
  else if c = '\r' then ['\\', 'r']
  else if c.toNat < 32 then
    ['\\', 'u', '0', '0', hexDigit (c.toNat / 16), hexDigit (c.toNat % 16)]
  else [c]

/-- `escChar` mapped over a character list. -/
def escList : List Char → List Char
  | [] => []
  | c :: cs => escChar c ++ escList cs

/-- A JSON string literal: quote, escaped body, quote. -/
def quoteString (s : String) : List Char :=
  '"' :: (escList s.data ++ ['"'])

/-- The separator emitted before an element at indentation depth `d`:
newline plus `2*d` spaces when pretty-printing, nothing when compact. -/
def newline (g : Bool) (d : Nat) : List Char :=
  if g then '\n' :: List.replicate (2 * d) ' ' else []

mutual

/-- Serialize a value at depth `d`; `g` selects pretty (2-space gap) or
compact output. -/
def serializeVal (g : Bool) (d : Nat) : JsValue → List Char
  | .str s => quoteString s
  | .num n => (toString n).data
  | .bool b => (if b then "true" else "false").data
  | .null => "null".data
  | .undef => "null".data
  | .arr [] => ['[', ']']
  | .arr (x :: xs) =>
      '[' :: (newline g (d + 1) ++ serializeVal g (d + 1) x ++
        serializeArrTail g (d + 1) xs ++ newline g d ++ [']'])
  | .obj [] => ['\x7b', '\x7d']
  | .obj (kv :: kvs) =>
      '\x7b' :: (newline g (d + 1) ++ serializeMember g (d + 1) kv ++
        serializeObjTail g (d + 1) kvs ++ newline g d ++ ['\x7d'])

/-- Remaining array elements, each preceded by a comma and separator. -/
def serializeArrTail (g : Bool) (d : Nat) : List JsValue → List Char
  | [] => []
  | x :: xs => ',' :: (newline g d ++ serializeVal g d x ++ serializeArrTail g d xs)

/-- Remaining object members, each preceded by a comma and separator. -/
def serializeObjTail (g : Bool) (d : Nat) : List (String × JsValue) → List Char
  | [] => []
  | kv :: kvs =>
      ',' :: (newline g d ++ serializeMember g d kv ++ serializeObjTail g d kvs)

/-- One object member: quoted key, colon (with a space when pretty), value. -/
def serializeMember (g : Bool) (d : Nat) (kv : String × JsValue) : List Char :=
  quoteString kv.1 ++ (if g then [':', ' '] else [':']) ++ serializeVal g d kv.2

end

/-- `JSON.stringify(v, null, pretty ? 2 : 0)`. -/
def serialize (v : JsValue) (pretty : Bool) : String :=
  String.mk (serializeVal pretty 0 v)

/-! ## JSON parsing: model of `JSON.parse`

Modelled from the spec: `JSON.parse` is an external browser builtin (the
spec's round-trip property re-parses serialized output "as JSON").  The
model is a lexer pass that discards the insignificant whitespace between
tokens (`stripJsonWs`), followed by a recursive-descent parse of the
compact text.  Numbers are modelled as integers: the values this
application serializes contain only strings, arrays and objects. -/

/-- Discard JSON inter-token whitespace: drop whitespace outside string
literals, tracking the in-string and after-backslash states. -/
def stripAux : Bool → Bool → List Char → List Char
  | _, _, [] => []
  | false, _, c :: cs =>
      if c = '"' then c :: stripAux true false cs
      else if c = ' ' ∨ c = '\n' ∨ c = '\t' ∨ c = '\r' then stripAux false false cs
      else c :: stripAux false false cs
  | true, true, c :: cs => c :: stripAux true false cs
  | true, false, c :: cs =>
      if c = '\\' then c :: stripAux true true cs
      else if c = '"' then c :: stripAux false false cs
      else c :: stripAux true false cs

/-- The whitespace-discarding lexer pass on a string. -/
def stripJsonWs (s : String) : String := ⟨stripAux false false s.data⟩

/-- Value of a hexadecimal digit character. -/
def hexVal (c : Char) : Option Nat :=
  if '0' ≤ c ∧ c ≤ '9' then some (c.toNat - 48)
  else if 'a' ≤ c ∧ c ≤ 'f' then some (c.toNat - 87)
  else if 'A' ≤ c ∧ c ≤ 'F' then some (c.toNat - 55)
  else none

/-- Parse a JSON string body after the opening quote, decoding escapes;
returns the decoded characters and the input after the closing quote. -/
def parseStringBody : List Char → Option (List Char × List Char)
  | [] => none
  | '"' :: rest => some ([], rest)
  | '\\' :: 'u' :: h1 :: h2 :: h3 :: h4 :: rest =>
      match hexVal h1, hexVal h2, hexVal h3, hexVal h4, parseStringBody rest with
      | some a, some b, some c, some d, some (cs, r) =>
          let n := ((a * 16 + b) * 16 + c) * 16 + d
          if n < 0xd800 ∨ (0xdfff < n ∧ n < 0x110000) then
            some (Char.ofNat n :: cs, r)
          else none
      | _, _, _, _, _ => none
  | '\\' :: e :: rest =>
      match (match e with
        | '"' => some '"'
        | '\\' => some '\\'
        | '/' => some '/'
        | 'b' => some '\x08'
        | 'f' => some '\x0c'
        | 'n' => some '\n'
        | 'r' => some '\r'
        | 't' => some '\t'
        | _ => none), parseStringBody rest with
      | some c, some (cs, r) => some (c :: cs, r)
      | _, _ => none
  | c :: rest =>
      match parseStringBody rest with
      | some (cs, r) => some (c :: cs, r)
      | none => none

/-- Decimal digit test. -/
def isDigitCh (c : Char) : Bool := '0' ≤ c && c ≤ '9'

/-- Split off a maximal prefix of decimal digits. -/
def takeDigits : List Char → (List Char × List Char)
  | [] => ([], [])
  | c :: cs =>
      if isDigitCh c then
        ((takeDigits cs).1.cons c, (takeDigits cs).2)
      else ([], c :: cs)

/-- Decimal value of a digit list. -/
def digitsToNat (l : List Char) : Nat :=
  l.foldl (fun acc c => acc * 10 + (c.toNat - 48)) 0

mutual

/-- Recursive-descent parse of one compact JSON value; fuel bounds the
recursion depth. -/
def parseValue : Nat → List Char → Option (JsValue × List Char)
  | 0, _ => none
  | fuel + 1, cs =>
      match cs with
      | '"' :: rest =>
          match parseStringBody rest with
          | some (body, r) => some (.str ⟨body⟩, r)
          | none => none
      | 't' :: 'r' :: 'u' :: 'e' :: rest => some (.bool true, rest)
      | 'f' :: 'a' :: 'l' :: 's' :: 'e' :: rest => some (.bool false, rest)
      | 'n' :: 'u' :: 'l' :: 'l' :: rest => some (.null, rest)
      | '[' :: ']' :: r => some (.arr [], r)
      | '[' :: rest =>
          match parseValue fuel rest with
          | some (v, r) =>
              match parseArrTail fuel r with
              | some (vs, r2) => some (.arr (v :: vs), r2)
              | none => none
          | none => none
      | '\x7b' :: '\x7d' :: r => some (.obj [], r)
      | '\x7b' :: rest =>
          match parseMember fuel rest with
          | some (kv, r) =>
              match parseObjTail fuel r with
              | some (kvs, r2) => some (.obj (kv :: kvs), r2)
              | none => none
          | none => none
      | '-' :: rest =>
          match takeDigits rest with
          | ([], _) => none
          | (ds, r) => some (.num (-(digitsToNat ds : Int)), r)
      | c :: rest =>
          if isDigitCh c then
            some (.num (digitsToNat (takeDigits (c :: rest)).1),
              (takeDigits (c :: rest)).2)
          else none
      | [] => none

/-- Parse the remainder of an array after one element: a `,`-separated
element list closed by `]`. -/
def parseArrTail : Nat → List Char → Option (List JsValue × List Char)
  | 0, _ => none
  | fuel + 1, cs =>
      match cs with
      | ']' :: r => some ([], r)
      | ',' :: rest =>
          match parseValue fuel rest with
          | some (v, r) =>
              match parseArrTail fuel r with
              | some (vs, r2) => some (v :: vs, r2)
              | none => none
          | none => none
      | _ => none

/-- Parse the remainder of an object after one member: a `,`-separated
member list closed by the closing brace. -/
def parseObjTail : Nat → List Char → Option (List (String × JsValue) × List Char)
  | 0, _ => none
  | fuel + 1, cs =>
      match cs with
      | '\x7d' :: r => some ([], r)
      | ',' :: rest =>
          match parseMember fuel rest with
          | some (kv, r) =>
              match parseObjTail fuel r with
              | some (kvs, r2) => some (kv :: kvs, r2)
              | none => none
          | none => none
      | _ => none

/-- Parse one object member: quoted key, colon, value. -/
def parseMember : Nat → List Char → Option ((String × JsValue) × List Char)
  | 0, _ => none
  | fuel + 1, cs =>
      match cs with
      | '"' :: rest =>
          match parseStringBody rest with
          | some (key, ':' :: r) =>
              match parseValue fuel r with
              | some (v, r2) => some ((⟨key⟩, v), r2)
              | none => none
          | _ => none
      | _ => none

end

/-- Model of `JSON.parse`: discard inter-token whitespace, then parse
the compact text with fuel ample for its length; succeed only if the
whole input is consumed. -/
def jsonParse (s : String) : Option JsValue :=
  match parseValue (2 * (stripJsonWs s).length + 8) (stripJsonWs s).data with
  | some (v, []) => some v
  | _ => none


/-! ## The conversion handlers -/

/-- JS whitespace characters recognized by `String.prototype.trim`
(restricted to the ASCII ones relevant here). -/
def isJsWhitespace (c : Char) : Bool :=
  c = ' ' || c = '\t' || c = '\n' || c = '\r' || c = '\x0b' || c = '\x0c'

/-- Model of JS `xml.trim()`: strip leading and trailing whitespace. -/
def jsTrim (s : String) : String :=
  ⟨((s.data.dropWhile isJsWhitespace).reverse.dropWhile isJsWhitespace).reverse⟩


/-- UI state written by a conversion: the JSON output pane and the error
message (both `useState` strings in the app). -/
structure ConvertState where
  json : String
  error : String
deriving DecidableEq, Repr

/-- Embedding of `onConvert` from the main app source: clear the error;
empty or whitespace-only input clears the output and returns; otherwise
parse (`xml2js`, an external library, passed here as the `parse`
parameter), normalize with attribute prefixing, stringify with the
chosen indentation; on a parser exception clear the output and surface
`e?.message || 'Failed to convert XML'`.  The previous state is ignored:
every path overwrites both fields. -/
def onConvert (parse : String → Except String JsValue) (xml : String)
    (pretty : Bool) (_prev : ConvertState) : ConvertState :=
  if jsTrim xml = "" then { json := "", error := "" }
  else
    match parse xml with
    | .ok jsObj =>
        { json := serialize (normalizeXmlJs true jsObj) pretty, error := "" }
    | .error msg =>
        { json := "", error := if msg = "" then "Failed to convert XML" else msg }

/-- Embedding of `onConvert` from the secondary `App.jsx` variant, which
calls the external `xml2json` (passed as `convert`, a function of the
input and the pretty flag since its options include
`spaces: pretty ? 2 : 0`) and displays its string result directly. -/
def onConvertApp (convert : String → Bool → Except String String) (xml : String)
    (pretty : Bool) (_prev : ConvertState) : ConvertState :=
  if jsTrim xml = "" then { json := "", error := "" }
  else
    match convert xml pretty with
    | .ok result => { json := result, error := "" }
    | .error msg =>
        { json := "", error := if msg = "" then "Failed to convert XML" else msg }

/-! ## Sanity-check evaluations -/

example :
    normalizeXmlJs true (.obj [("_text", .str "hello")]) = .str "hello" := rfl

example :
    normalizeXmlJs true (.obj [("a", .obj [("_text", .str "hello")])]) =
      .obj [("a", .str "hello")] := rfl

example :
    normalizeXmlJs true (.obj [("_attributes", .obj [("id", .str "1")])]) =
      .obj [("_id", .str "1")] := rfl

example :
    normalizeXmlJs false (.obj [("_attributes", .obj [("id", .str "1")])]) =
      .obj [("id", .str "1")] := rfl

example :
    normalizeXmlJs true (.obj [("a", .arr [.obj [("_text", .str "1")],
      .obj [("_text", .str "2")]])]) = .obj [("a", .arr [.str "1", .str "2"])] := rfl

-- the C2 hazard: an attribute literally named "text" produces the sentinel
-- output key "_text", and renormalizing flattens it (C9 hazard).
example :
    normalizeXmlJs true (.obj [("_attributes", .obj [("text", .str "x")])]) =
      .obj [("_text", .str "x")] := rfl

example : serialize (.obj [("a", .str "b")]) false = "\x7b\"a\":\"b\"\x7d" := rfl

example :
    serialize (.obj [("a", .arr [.str "x", .str "y"])]) true =
      "\x7b\n  \"a\": [\n    \"x\",\n    \"y\"\n  ]\n\x7d" := rfl

example : jsTrim "  \n\t " = "" := rfl

example : jsTrim " <a> " = "<a>" := rfl

example : jsonParse "\x7b\"a\": [\"x\", \"y\"]\x7d" =
    some (.obj [("a", .arr [.str "x", .str "y"])]) := rfl

example :
    jsonParse (serialize (.obj [("k", .str "a b\nc")]) true) =
      some (.obj [("k", .str "a b\nc")]) := rfl

example : stripJsonWs " [\"a b\", \"c\"] " = "[\"a b\",\"c\"]" := rfl

/-! ## Basic lemmas -/

theorem normArray_eq_map (p : Bool) (ns : List JsValue) :
    normArray p ns = ns.map (normalizeXmlJs p) := by
  induction ns with
  | nil => rfl
  | cons n ns ih => simp [normArray, ih]

theorem objInsert_fresh (o : List (String × JsValue)) (k : String) (v : JsValue)
    (h : ∀ kv ∈ o, kv.1 ≠ k) : objInsert o k v = o ++ [(k, v)] := by
  have hany : o.any (fun kv => kv.1 = k) = false := by
    rw [List.any_eq_false]
    intro kv hm
    simp [h kv hm]
  simp [objInsert, hany]

theorem strNodupB_cons (k : String) (ks : List String) :
    strNodupB (k :: ks) = true ↔
      (∀ k2 ∈ ks, k2 ≠ k) ∧ strNodupB ks = true := by
  simp [strNodupB]

/-- The attribute-merging fold appends one binding per attribute, keys
prefixed, values untouched, provided the prefixed keys are pairwise
distinct and fresh for the accumulator. -/
theorem attrFold_append (p : Bool) (attrs : List (String × JsValue)) :
    ∀ acc, strNodupB (attrs.map fun kv => prefKey p kv.1) = true →
      (∀ kv ∈ attrs, ∀ kv2 ∈ acc, kv2.1 ≠ prefKey p kv.1) →
      attrs.foldl (fun acc kv => objInsert acc (prefKey p kv.1) kv.2) acc =
        acc ++ attrs.map (fun kv => (prefKey p kv.1, kv.2)) := by
  induction attrs with
  | nil => intro acc _ _; simp
  | cons kv attrs ih =>
      intro acc hnd hfresh
      rw [List.map_cons] at hnd
      have hnd' := (strNodupB_cons _ _).mp hnd
      simp only [List.foldl_cons, List.map_cons]
      rw [objInsert_fresh _ _ _ (fun kv2 hm => hfresh kv (by simp) kv2 hm)]
      rw [ih (acc ++ [(prefKey p kv.1, kv.2)]) hnd'.2 ?_]
      · simp
      · intro kv' hm' kv2 hm2
        rcases List.mem_append.mp hm2 with h2 | h2
        · exact hfresh kv' (by simp [hm']) kv2 h2
        · have h2' : kv2 = (prefKey p kv.1, kv.2) := by simpa using h2
          subst h2'
          exact fun he =>
            hnd'.1 (prefKey p kv'.1) (List.mem_map.mpr ⟨kv', hm', rfl⟩) he.symm

/-- The child loop appends one binding per non-sentinel child, in order,
with recursively normalized values, provided the surviving keys are
pairwise distinct and fresh for the accumulator. -/
theorem childLoop_append (p : Bool) (l : List (String × JsValue)) :
    ∀ acc, strNodupB ((l.filter fun kv => !isSentinel kv.1).map Prod.fst) = true →
      (∀ kv ∈ l, isSentinel kv.1 = false → ∀ kv2 ∈ acc, kv2.1 ≠ kv.1) →
      childLoop p acc l =
        acc ++ (l.filter fun kv => !isSentinel kv.1).map
          (fun kv => (kv.1, normalizeXmlJs p kv.2)) := by
  induction l with
  | nil => intro acc _ _; simp [childLoop]
  | cons kv l ih =>
      intro acc hnd hfresh
      by_cases hs : isSentinel kv.1
      · rw [childLoop, if_pos hs]
        rw [List.filter_cons_of_neg (by simp [hs])] at hnd ⊢
        exact ih acc hnd (fun kv' hm' => hfresh kv' (by simp [hm']))
      · rw [childLoop, if_neg hs]
        rw [List.filter_cons_of_pos (by simp [hs])] at hnd ⊢
        rw [List.map_cons] at hnd
        have hnd' := (strNodupB_cons _ _).mp hnd
        rw [objInsert_fresh _ _ _
          (fun kv2 hm => hfresh kv (by simp) (by simpa using hs) kv2 hm)]
        rw [ih (acc ++ [(kv.1, normalizeXmlJs p kv.2)]) hnd'.2 ?_]
        · simp
        · intro kv' hm' hs' kv2 hm2
          rcases List.mem_append.mp hm2 with h2 | h2
          · exact hfresh kv' (by simp [hm']) hs' kv2 h2
          · have h2' : kv2 = (kv.1, normalizeXmlJs p kv.2) := by simpa using h2
            subst h2'
            refine fun he => hnd'.1 kv'.1 ?_ he.symm
            exact List.mem_map.mpr ⟨kv', List.mem_filter.mpr ⟨hm', by simp [hs']⟩, rfl⟩

theorem childLoop_cons_sentinel (p : Bool) (acc : List (String × JsValue))
    (kv : String × JsValue) (kvs : List (String × JsValue))
    (h : isSentinel kv.1 = true) :
    childLoop p acc (kv :: kvs) = childLoop p acc kvs := by
  rw [childLoop, if_pos h]

theorem childLoop_cons_other (p : Bool) (acc : List (String × JsValue))
    (kv : String × JsValue) (kvs : List (String × JsValue))
    (h : isSentinel kv.1 = false) :
    childLoop p acc (kv :: kvs) =
      childLoop p (objInsert acc kv.1 (normalizeXmlJs p kv.2)) kvs := by
  rw [childLoop, if_neg (by simp [h])]

theorem jsMember_cons_self (kv : String × JsValue) (kvs : List (String × JsValue)) :
    jsMember (kv :: kvs) kv.1 = kv.2 := by
  rw [jsMember, if_pos rfl]

/-- Removing bindings of a key other than the looked-up one does not
change JS member access. -/
theorem jsMember_filter_ne (kvs : List (String × JsValue)) (a k : String)
    (h : k ≠ a) :
    jsMember (kvs.filter fun kv => kv.1 != a) k = jsMember kvs k := by
  induction kvs with
  | nil => rfl
  | cons kv kvs ih =>
      by_cases ha : kv.1 = a
      · rw [List.filter_cons_of_neg (by simp [ha])]
        rw [ih, jsMember, if_neg (by rw [ha]; exact fun he => h he.symm)]
      · rw [List.filter_cons_of_pos (by simp [ha])]
        by_cases hk : kv.1 = k
        · simp [jsMember, hk]
        · simp only [jsMember, if_neg hk]
          exact ih

/-- The child loop never looks at `_text` bindings: filtering them out
of the iterated list leaves the loop's result unchanged. -/
theorem childLoop_filter_text (p : Bool) (l : List (String × JsValue)) :
    ∀ acc, childLoop p acc (l.filter fun kv => kv.1 != "_text") =
      childLoop p acc l := by
  induction l with
  | nil => intro acc; rfl
  | cons kv l ih =>
      intro acc
      by_cases ht : kv.1 = "_text"
      · rw [List.filter_cons_of_neg (by simp [ht])]
        rw [ih, childLoop, if_pos (by simp [isSentinel, ht])]
      · rw [List.filter_cons_of_pos (by simp [ht])]
        by_cases hs : isSentinel kv.1
        · rw [childLoop, if_pos hs, childLoop, if_pos hs, ih]
        · rw [childLoop, if_neg hs, childLoop, if_neg hs, ih]

/-! ## Claim C1 -/

/-- C1: an Element node whose only populated field is its text — in the
compact form, an object whose single key is `_text` — normalizes to that
text as a bare string, not an object; `<a>hello</a>`'s element node
`{_text: "hello"}` normalizes to `"hello"`. -/
theorem normalize_pure_text_leaf (prefixAttr : Bool) (s : String) :
    normalizeXmlJs prefixAttr (.obj [("_text", .str s)]) = .str s := by
  simp [normalizeXmlJs, jsMember]

/-! ## Claim C4 -/

/-- C4: on an ordered sequence of nodes, `normalizeXmlJs` maps itself
over each element, returning an Array of the same length with the
results in document order. -/
theorem normalize_seq_map (prefixAttr : Bool) (ns : List JsValue) :
    normalizeXmlJs prefixAttr (.arr ns) = .arr (ns.map (normalizeXmlJs prefixAttr)) ∧
      (ns.map (normalizeXmlJs prefixAttr)).length = ns.length := by
  refine ⟨?_, by simp⟩
  simp [normalizeXmlJs, normArray_eq_map]

/-! ## Claim C5 -/

/-- C5: an Element node with non-empty text that also has attributes or
children (mixed content) gets no output key synthesized for that text:
the normalized result is exactly what it would be had the `_text` field
not been there at all, since the pure-text-leaf rule fires only when
text is the sole content. -/
theorem normalize_mixed_text_dropped (prefixAttr : Bool)
    (kvs : List (String × JsValue)) (s : String)
    (h1 : ("_text", JsValue.str s) ∈ kvs) (h2 : s ≠ "")
    (h3 : ∃ kv ∈ kvs, kv.1 ≠ "_text") :
    normalizeXmlJs prefixAttr (.obj kvs) =
      normalizeXmlJs prefixAttr (.obj (kvs.filter fun kv => kv.1 != "_text")) := by
  have hL : kvs.map Prod.fst ≠ ["_text"] := by
    intro he
    rcases h3 with ⟨kv, hm, hne⟩
    exact hne (by
      have : kv.1 ∈ kvs.map Prod.fst := List.mem_map.mpr ⟨kv, hm, rfl⟩
      rw [he] at this
      simpa using this)
  have hR : (kvs.filter fun kv => kv.1 != "_text").map Prod.fst ≠ ["_text"] := by
    intro he
    have : "_text" ∈ (kvs.filter fun kv => kv.1 != "_text").map Prod.fst := by
      rw [he]; simp
    rcases List.mem_map.mp this with ⟨kv, hm, hk⟩
    have := (List.mem_filter.mp hm).2
    simp [hk] at this
  rw [normalizeXmlJs, normalizeXmlJs, if_neg hL, if_neg hR]
  rw [attrInit, attrInit, jsMember_filter_ne kvs "_text" "_attributes" (by decide)]
  rw [childLoop_filter_text]

/-- Witness for C5: `{_text: "t", b: {_text: "1"}}` (mixed content)
normalizes with the text dropped, to `{b: "1"}`. -/
theorem normalize_mixed_text_dropped_witness :
    normalizeXmlJs true
        (.obj [("_text", .str "t"), ("b", .obj [("_text", .str "1")])]) =
      .obj [("b", .str "1")] := by
  have h := normalize_mixed_text_dropped true
    [("_text", JsValue.str "t"), ("b", JsValue.obj [("_text", JsValue.str "1")])] "t"
    (by simp) (by decide)
    ⟨("b", JsValue.obj [("_text", JsValue.str "1")]), by simp, by decide⟩
  exact h.trans rfl

/-! ## Claim C3 -/

/-- C3: when an Element node is built into an Object, each attribute
`(k, v)` is inserted under `"_" ++ k` with prefixing enabled (`k` when
disabled) with its value unmodified, attribute keys precede the
child-derived keys, children keep document order — and, separately, when
a child element key equals an already-inserted prefixed attribute key,
the later child insertion overwrites the attribute's value in place. -/
theorem normalize_attributes_spec (p : Bool) (attrs rest : List (String × JsValue))
    (h1 : strNodupB (attrs.map fun kv => prefKey p kv.1) = true)
    (h2 : strNodupB ((rest.filter fun kv => !isSentinel kv.1).map Prod.fst) = true)
    (h3 : ∀ kv ∈ rest, isSentinel kv.1 = false →
      ∀ kv2 ∈ attrs, prefKey p kv2.1 ≠ kv.1) :
    normalizeXmlJs p (.obj (("_attributes", .obj attrs) :: rest)) =
      .obj ((attrs.map fun kv => (prefKey p kv.1, kv.2)) ++
        ((rest.filter fun kv => !isSentinel kv.1).map
          fun kv => (kv.1, normalizeXmlJs p kv.2))) ∧
    (∀ a av cv, isSentinel (prefKey p a) = false →
      normalizeXmlJs p (.obj [("_attributes", .obj [(a, av)]), (prefKey p a, cv)]) =
        .obj [(prefKey p a, normalizeXmlJs p cv)]) := by
  constructor
  · have hkeys : (("_attributes", JsValue.obj attrs) :: rest).map Prod.fst ≠ ["_text"] := by
      intro he
      simp at he
    rw [normalizeXmlJs, if_neg hkeys]
    have hmem : jsMember (("_attributes", JsValue.obj attrs) :: rest) "_attributes" =
        .obj attrs := jsMember_cons_self _ _
    have hinit : attrInit p (("_attributes", JsValue.obj attrs) :: rest) =
        attrs.map fun kv => (prefKey p kv.1, kv.2) := by
      rw [attrInit, hmem]
      show attrs.foldl (fun acc kv => objInsert acc (prefKey p kv.1) kv.2) [] =
        attrs.map fun kv => (prefKey p kv.1, kv.2)
      rw [attrFold_append p attrs [] h1 (by simp)]
      simp
    rw [childLoop_cons_sentinel p _ ("_attributes", JsValue.obj attrs) rest rfl, hinit]
    rw [childLoop_append p rest _ h2 ?_]
    intro kv hm hs kv2 hm2
    rcases List.mem_map.mp hm2 with ⟨kv', hm', hk⟩
    rw [← hk]
    exact h3 kv hm hs kv' hm'
  · intro a av cv hns
    have hkeys : ([("_attributes", JsValue.obj [(a, av)]),
        (prefKey p a, cv)]).map Prod.fst ≠ ["_text"] := by
      intro he
      simp at he
    rw [normalizeXmlJs, if_neg hkeys]
    have hmem : jsMember [("_attributes", JsValue.obj [(a, av)]), (prefKey p a, cv)]
        "_attributes" = .obj [(a, av)] := jsMember_cons_self _ _
    have hinit : attrInit p [("_attributes", JsValue.obj [(a, av)]), (prefKey p a, cv)] =
        [(prefKey p a, av)] := by
      rw [attrInit, hmem]
      show List.foldl (fun acc kv => objInsert acc (prefKey p kv.1) kv.2) [] [(a, av)] =
        [(prefKey p a, av)]
      simp [objInsert]
    rw [hinit,
      childLoop_cons_sentinel p _ ("_attributes", JsValue.obj [(a, av)])
        [(prefKey p a, cv)] rfl,
      childLoop_cons_other _ _ _ _ hns]
    rw [childLoop]
    simp [objInsert]

/-- Witness for C3: `<a id="1"><b>2</b></a>`'s compact node normalizes to
`{"_id": "1", "b": "2"}` (attribute first, unmodified, prefixed), and a
child named `_id` overwrites the attribute binding in place. -/
theorem normalize_attributes_spec_witness :
    normalizeXmlJs true (.obj [("_attributes", .obj [("id", .str "1")]),
        ("b", .obj [("_text", .str "2")])]) =
      .obj [("_id", .str "1"), ("b", .str "2")] ∧
    normalizeXmlJs true (.obj [("_attributes", .obj [("id", .str "1")]),
        ("_id", .str "9")]) = .obj [("_id", .str "9")] := by
  have h := normalize_attributes_spec true [("id", JsValue.str "1")]
    [("b", JsValue.obj [("_text", JsValue.str "2")])] (by decide) (by decide)
    (by
      intro kv hm hs kv2 hm2
      simp at hm hm2
      subst hm; subst hm2
      decide)
  exact ⟨h.1.trans rfl, (h.2 "id" (.str "1") (.str "9") (by decide)).trans rfl⟩

/-! ## Claim C10 -/

/-- C10: every value that is neither an array nor a non-null object —
strings, numbers, booleans, `null`, `undefined` — passes through
`normalizeXmlJs` unchanged rather than raising an error. -/
theorem normalize_scalar_passthrough (prefixAttr : Bool) (v : JsValue)
    (h : isScalar v = true) : normalizeXmlJs prefixAttr v = v := by
  cases v <;> simp_all [isScalar, normalizeXmlJs]

/-- Witness for C10 at the concrete scalar inputs `42`, `null` and `"s"`. -/
theorem normalize_scalar_passthrough_witness :
    isScalar (.num 42) = true ∧ normalizeXmlJs true (.num 42) = .num 42 ∧
      normalizeXmlJs true .null = .null ∧
      normalizeXmlJs false (.str "s") = .str "s" :=
  ⟨rfl, normalize_scalar_passthrough true (.num 42) rfl,
    normalize_scalar_passthrough true .null rfl,
    normalize_scalar_passthrough false (.str "s") rfl⟩

/-! ## Claim C6 -/

/-- C6: empty or whitespace-only input produces empty output and no
error in both conversion handlers: the JSON output is set to the empty
string and the error message stays empty, whatever the parser, the
pretty flag, and the previous UI state. -/
theorem onConvert_empty_input (parse : String → Except String JsValue)
    (convert : String → Bool → Except String String) (xml : String)
    (pretty : Bool) (prev : ConvertState) (h : jsTrim xml = "") :
    onConvert parse xml pretty prev = { json := "", error := "" } ∧
      onConvertApp convert xml pretty prev = { json := "", error := "" } := by
  constructor <;> simp [onConvert, onConvertApp, h]

/-- Witness for C6 on the whitespace-only input `"  \n"`. -/
theorem onConvert_empty_input_witness :
    (jsTrim "  \n" = "") ∧
      onConvert (fun _ => Except.error "boom") "  \n" true ⟨"old", "olderr"⟩ =
        ConvertState.mk "" "" ∧
      onConvertApp (fun _ _ => Except.ok "j") "  \n" true ⟨"old", "olderr"⟩ =
        ConvertState.mk "" "" :=
  ⟨rfl,
    (onConvert_empty_input (fun _ => Except.error "boom")
      (fun _ _ => Except.ok "j") "  \n" true ⟨"old", "olderr"⟩ rfl).1,
    (onConvert_empty_input (fun _ => Except.error "boom")
      (fun _ _ => Except.ok "j") "  \n" true ⟨"old", "olderr"⟩ rfl).2⟩

/-! ## Claim C7 -/

/-- C7 counterexample: the parser's message text is not always surfaced
verbatim — when the raised error's message is the empty string, the code
substitutes the fallback `'Failed to convert XML'`
(`e?.message || 'Failed to convert XML'`), so the surfaced message
differs from the parser's. -/
theorem onConvert_error_verbatim_counterexample :
    onConvert (fun _ => Except.error "") "<a><b></a>" true ⟨"old", "olderr"⟩ =
      ConvertState.mk "" "Failed to convert XML" ∧
      "Failed to convert XML" ≠ "" := by
  exact ⟨rfl, by decide⟩

/-- C7 amended: on input the parser rejects, if the raised message text
is non-empty it is surfaced verbatim as the single error (an empty
message is replaced by the fallback `'Failed to convert XML'`), and the
output is cleared to empty regardless of the previous UI state — no
partial output is produced and prior output is not preserved.  Both
handlers behave alike. -/
theorem onConvert_parser_error (parse : String → Except String JsValue)
    (convert : String → Bool → Except String String) (xml msg : String)
    (pretty : Bool) (prev : ConvertState) (h1 : jsTrim xml ≠ "") (h2 : msg ≠ "")
    (hp : parse xml = Except.error msg) (hc : convert xml pretty = Except.error msg) :
    onConvert parse xml pretty prev = { json := "", error := msg } ∧
      onConvertApp convert xml pretty prev = { json := "", error := msg } := by
  constructor <;> simp [onConvert, onConvertApp, h1, h2, hp, hc]

/-- Witness for the amended C7 on the malformed input `<a><b></a>` with
a concrete parser message. -/
theorem onConvert_parser_error_witness :
    (jsTrim "<a><b></a>" ≠ "") ∧ ("Unexpected close tag" ≠ "") ∧
      onConvert (fun _ => Except.error "Unexpected close tag") "<a><b></a>" true
        ⟨"old", "olderr"⟩ = ConvertState.mk "" "Unexpected close tag" ∧
      onConvertApp (fun _ _ => Except.error "Unexpected close tag") "<a><b></a>" true
        ⟨"old", "olderr"⟩ = ConvertState.mk "" "Unexpected close tag" :=
  ⟨by decide, by decide,
    (onConvert_parser_error (fun _ => Except.error "Unexpected close tag")
      (fun _ _ => Except.error "Unexpected close tag") "<a><b></a>"
      "Unexpected close tag" true ⟨"old", "olderr"⟩ (by decide) (by decide) rfl rfl).1,
    (onConvert_parser_error (fun _ => Except.error "Unexpected close tag")
      (fun _ _ => Except.error "Unexpected close tag") "<a><b></a>"
      "Unexpected close tag" true ⟨"old", "olderr"⟩ (by decide) (by decide) rfl rfl).2⟩

/-! ## Sentinel-freedom and key-distinctness machinery (for C2 and C9) -/

theorem isStr_csk {v : JsValue} (h : v.isStr = true) :
    containsSentinelKey v = false := by
  cases v <;> simp_all [JsValue.isStr, containsSentinelKey]

theorem isStr_ndk {v : JsValue} (h : v.isStr = true) : nodupKeys v = true := by
  cases v <;> simp_all [JsValue.isStr, nodupKeys]

theorem cskFields_eq_false (l : List (String × JsValue)) :
    cskFields l = false ↔
      ∀ kv ∈ l, isSentinel kv.1 = false ∧ containsSentinelKey kv.2 = false := by
  induction l with
  | nil => simp [cskFields]
  | cons kv t ih => simp [cskFields, ih]

theorem cskList_eq_false (l : List JsValue) :
    cskList l = false ↔ ∀ x ∈ l, containsSentinelKey x = false := by
  induction l with
  | nil => simp [cskList]
  | cons x t ih => simp [cskList, ih]

theorem hfList_eq_true (l : List JsValue) :
    hfList l = true ↔ ∀ x ∈ l, hazardFree x = true := by
  induction l with
  | nil => simp [hfList]
  | cons x t ih => simp [hfList, ih]

theorem hfFields_eq_true (l : List (String × JsValue)) :
    hfFields l = true ↔ ∀ kv ∈ l, hfField kv = true := by
  induction l with
  | nil => simp [hfFields]
  | cons kv t ih =>
      have he : hfFields (kv :: t) = (hfField kv && hfFields t) := rfl
      rw [he]
      simp [ih]

theorem all_map_fst (t : List (String × JsValue)) (k : String) :
    (t.map Prod.fst).all (fun k2 => k2 != k) = t.all (fun kv2 => kv2.1 != k) := by
  induction t <;> simp_all

theorem ndkFields_iff (l : List (String × JsValue)) :
    ndkFields l = true ↔
      strNodupB (l.map Prod.fst) = true ∧ ∀ kv ∈ l, nodupKeys kv.2 = true := by
  induction l with
  | nil => simp [ndkFields, strNodupB]
  | cons kv t ih =>
      rw [ndkFields, List.map_cons, strNodupB]
      simp only [Bool.and_eq_true, ih, all_map_fst, List.forall_mem_cons]
      tauto

theorem ndkList_eq_true (l : List JsValue) :
    ndkList l = true ↔ ∀ x ∈ l, nodupKeys x = true := by
  induction l with
  | nil => simp [ndkList]
  | cons x t ih => simp [ndkList, ih]

theorem map_fst_singleton_text {kvs : List (String × JsValue)}
    (h : kvs.map Prod.fst = ["_text"]) : ∃ v, kvs = [("_text", v)] := by
  cases kvs with
  | nil => simp at h
  | cons kv t =>
      cases t with
      | nil =>
          obtain ⟨k, v⟩ := kv
          simp at h
          exact ⟨v, by simp [h]⟩
      | cons kv2 t2 => simp at h

theorem jsMember_self_or (kvs : List (String × JsValue)) (k : String) :
    jsMember kvs k = .undef ∨ (k, jsMember kvs k) ∈ kvs := by
  induction kvs with
  | nil => left; rfl
  | cons kv t ih =>
      by_cases h : kv.1 = k
      · right
        rw [jsMember, if_pos h]
        have he : (k, kv.2) = kv := by
          obtain ⟨k1, v1⟩ := kv
          simp only at h
          simp [h]
        rw [he]
        exact List.mem_cons_self kv t
      · rw [jsMember, if_neg h]
        rcases ih with h1 | h1
        · exact Or.inl h1
        · exact Or.inr (List.mem_cons_of_mem kv h1)

theorem jsMember_eq_undef_of_no_key (kvs : List (String × JsValue)) (k : String)
    (h : ∀ kv ∈ kvs, kv.1 ≠ k) : jsMember kvs k = .undef := by
  induction kvs with
  | nil => rfl
  | cons kv t ih =>
      rw [jsMember, if_neg (h kv (List.mem_cons_self kv t))]
      exact ih (fun kv2 hm => h kv2 (List.mem_cons_of_mem kv hm))

theorem objInsert_csk_false (o : List (String × JsValue)) (k : String) (v : JsValue)
    (ho : cskFields o = false) (hk : isSentinel k = false)
    (hv : containsSentinelKey v = false) : cskFields (objInsert o k v) = false := by
  rw [cskFields_eq_false] at ho ⊢
  intro kv hm
  rw [objInsert] at hm
  by_cases hc : o.any (fun kv => kv.1 = k) = true
  · rw [if_pos hc] at hm
    rcases List.mem_map.mp hm with ⟨kv', hm', he⟩
    by_cases h2 : kv'.1 = k
    · rw [if_pos h2] at he
      rw [← he]
      exact ⟨hk, hv⟩
    · rw [if_neg h2] at he
      rw [← he]
      exact ho kv' hm'
  · rw [if_neg hc] at hm
    rcases List.mem_append.mp hm with h2 | h2
    · exact ho kv h2
    · have he : kv = (k, v) := by simpa using h2
      rw [he]
      exact ⟨hk, hv⟩

theorem strNodupB_append_singleton (l : List String) (k : String)
    (hl : strNodupB l = true) (hk : ∀ k2 ∈ l, k2 ≠ k) :
    strNodupB (l ++ [k]) = true := by
  induction l with
  | nil => simp [strNodupB]
  | cons k1 t ih =>
      rw [strNodupB] at hl
      rw [List.cons_append, strNodupB]
      simp only [Bool.and_eq_true, List.all_eq_true, List.mem_append] at hl ⊢
      refine ⟨?_, ih hl.2 (fun k2 hm => hk k2 (List.mem_cons_of_mem k1 hm))⟩
      intro k2 hm
      rcases hm with hm | hm
      · exact hl.1 k2 hm
      · have hx : k2 = k := by simpa using hm
        subst hx
        simpa [bne] using fun he =>
          (hk k1 (List.mem_cons_self k1 t)) he.symm

theorem keys_objInsert (o : List (String × JsValue)) (k : String) (v : JsValue) :
    (objInsert o k v).map Prod.fst =
      if o.any (fun kv => kv.1 = k) then o.map Prod.fst
      else o.map Prod.fst ++ [k] := by
  rw [objInsert]
  by_cases hc : o.any (fun kv => kv.1 = k) = true
  · rw [if_pos hc, if_pos hc, List.map_map]
    apply List.map_congr_left
    intro kv _
    by_cases h2 : kv.1 = k
    · simp [h2]
    · simp [h2]
  · rw [if_neg hc, if_neg hc]
    simp

theorem objInsert_ndk (o : List (String × JsValue)) (k : String) (v : JsValue)
    (ho : ndkFields o = true) (hv : nodupKeys v = true) :
    ndkFields (objInsert o k v) = true := by
  rw [ndkFields_iff] at ho ⊢
  constructor
  · rw [keys_objInsert]
    by_cases hc : o.any (fun kv => kv.1 = k) = true
    · rw [if_pos hc]; exact ho.1
    · rw [if_neg hc]
      refine strNodupB_append_singleton _ _ ho.1 ?_
      intro k2 hm he
      rcases List.mem_map.mp hm with ⟨kv', hm', hk'⟩
      rw [Bool.not_eq_true, List.any_eq_false] at hc
      exact hc kv' hm' (by simp [hk', he])
  · intro kv hm
    rw [objInsert] at hm
    by_cases hc : o.any (fun kv => kv.1 = k) = true
    · rw [if_pos hc] at hm
      rcases List.mem_map.mp hm with ⟨kv', hm', he⟩
      by_cases h2 : kv'.1 = k
      · rw [if_pos h2] at he
        rw [← he]
        exact hv
      · rw [if_neg h2] at he
        rw [← he]
        exact ho.2 kv' hm'
    · rw [if_neg hc] at hm
      rcases List.mem_append.mp hm with h2 | h2
      · exact ho.2 kv h2
      · have he : kv = (k, v) := by simpa using h2
        rw [he]
        exact hv

theorem attrOk_parts {kv : String × JsValue} (h : attrOk kv = true) :
    kv.2.isStr = true ∧ isSentinel kv.1 = false ∧
      isSentinel ("_" ++ kv.1) = false := by
  simp only [attrOk, Bool.and_eq_true, Bool.not_eq_true'] at h
  tauto

theorem attrFold_csk (p : Bool) (attrs : List (String × JsValue))
    (h : attrs.all attrOk = true) :
    ∀ acc, cskFields acc = false →
      cskFields (attrs.foldl
        (fun acc kv => objInsert acc (prefKey p kv.1) kv.2) acc) = false := by
  induction attrs with
  | nil => exact fun acc ha => ha
  | cons kv attrs ih =>
      intro acc hacc
      rw [List.all_cons, Bool.and_eq_true] at h
      rw [List.foldl_cons]
      obtain ⟨h1, h2, h3⟩ := attrOk_parts h.1
      refine ih h.2 _ (objInsert_csk_false _ _ _ hacc ?_ (isStr_csk h1))
      cases p
      · simpa [prefKey] using h2
      · simpa [prefKey] using h3

theorem attrFold_ndk (p : Bool) (attrs : List (String × JsValue))
    (h : attrs.all attrOk = true) :
    ∀ acc, ndkFields acc = true →
      ndkFields (attrs.foldl
        (fun acc kv => objInsert acc (prefKey p kv.1) kv.2) acc) = true := by
  induction attrs with
  | nil => exact fun acc ha => ha
  | cons kv attrs ih =>
      intro acc hacc
      rw [List.all_cons, Bool.and_eq_true] at h
      rw [List.foldl_cons]
      obtain ⟨h1, -, -⟩ := attrOk_parts h.1
      exact ih h.2 _ (objInsert_ndk _ _ _ hacc (isStr_ndk h1))

theorem childLoop_csk (p : Bool) (l : List (String × JsValue)) :
    ∀ acc, (∀ kv ∈ l, isSentinel kv.1 = false →
        containsSentinelKey (normalizeXmlJs p kv.2) = false) →
      cskFields acc = false → cskFields (childLoop p acc l) = false := by
  induction l with
  | nil => exact fun acc _ h => h
  | cons kv l ih =>
      intro acc hrec hacc
      by_cases hs : isSentinel kv.1 = true
      · rw [childLoop_cons_sentinel _ _ _ _ hs]
        exact ih acc (fun kv2 hm => hrec kv2 (List.mem_cons_of_mem kv hm)) hacc
      · have hs' : isSentinel kv.1 = false := by simpa using hs
        rw [childLoop_cons_other _ _ _ _ hs']
        exact ih _ (fun kv2 hm => hrec kv2 (List.mem_cons_of_mem kv hm))
          (objInsert_csk_false _ _ _ hacc hs'
            (hrec kv (List.mem_cons_self kv l) hs'))

theorem childLoop_ndk (p : Bool) (l : List (String × JsValue)) :
    ∀ acc, (∀ kv ∈ l, isSentinel kv.1 = false →
        nodupKeys (normalizeXmlJs p kv.2) = true) →
      ndkFields acc = true → ndkFields (childLoop p acc l) = true := by
  induction l with
  | nil => exact fun acc _ h => h
  | cons kv l ih =>
      intro acc hrec hacc
      by_cases hs : isSentinel kv.1 = true
      · rw [childLoop_cons_sentinel _ _ _ _ hs]
        exact ih acc (fun kv2 hm => hrec kv2 (List.mem_cons_of_mem kv hm)) hacc
      · have hs' : isSentinel kv.1 = false := by simpa using hs
        rw [childLoop_cons_other _ _ _ _ hs']
        exact ih _ (fun kv2 hm => hrec kv2 (List.mem_cons_of_mem kv hm))
          (objInsert_ndk _ _ _ hacc (hrec kv (List.mem_cons_self kv l) hs'))

theorem attrInit_csk (p : Bool) (kvs : List (String × JsValue))
    (hf : hfFields kvs = true) : cskFields (attrInit p kvs) = false := by
  cases hv : jsMember kvs "_attributes" with
  | obj attrs =>
      have hmem : ("_attributes", JsValue.obj attrs) ∈ kvs := by
        rcases jsMember_self_or kvs "_attributes" with h1 | h1
        · rw [hv] at h1; simp at h1
        · rwa [hv] at h1
      have hok : attrs.all attrOk = true := by
        have := (hfFields_eq_true kvs).mp hf _ hmem
        simpa [hfField, attrsOk] using this
      rw [attrInit, hv]
      exact attrFold_csk p attrs hok [] rfl
  | arr xs =>
      have hmem : ("_attributes", JsValue.arr xs) ∈ kvs := by
        rcases jsMember_self_or kvs "_attributes" with h1 | h1
        · rw [hv] at h1; simp at h1
        · rwa [hv] at h1
      have := (hfFields_eq_true kvs).mp hf _ hmem
      simp [hfField, attrsOk] at this
  | str s => rw [attrInit, hv]; rfl
  | num n => rw [attrInit, hv]; rfl
  | bool b => rw [attrInit, hv]; rfl
  | null => rw [attrInit, hv]; rfl
  | undef => rw [attrInit, hv]; rfl

theorem attrInit_ndk (p : Bool) (kvs : List (String × JsValue))
    (hf : hfFields kvs = true) : ndkFields (attrInit p kvs) = true := by
  cases hv : jsMember kvs "_attributes" with
  | obj attrs =>
      have hmem : ("_attributes", JsValue.obj attrs) ∈ kvs := by
        rcases jsMember_self_or kvs "_attributes" with h1 | h1
        · rw [hv] at h1; simp at h1
        · rwa [hv] at h1
      have hok : attrs.all attrOk = true := by
        have := (hfFields_eq_true kvs).mp hf _ hmem
        simpa [hfField, attrsOk] using this
      rw [attrInit, hv]
      exact attrFold_ndk p attrs hok [] rfl
  | arr xs =>
      have hmem : ("_attributes", JsValue.arr xs) ∈ kvs := by
        rcases jsMember_self_or kvs "_attributes" with h1 | h1
        · rw [hv] at h1; simp at h1
        · rwa [hv] at h1
      have := (hfFields_eq_true kvs).mp hf _ hmem
      simp [hfField, attrsOk] at this
  | str s => rw [attrInit, hv]; rfl
  | num n => rw [attrInit, hv]; rfl
  | bool b => rw [attrInit, hv]; rfl
  | null => rw [attrInit, hv]; rfl
  | undef => rw [attrInit, hv]; rfl

theorem sizeOf_mem_arr {x : JsValue} {xs : List JsValue} (h : x ∈ xs) :
    sizeOf x < sizeOf (JsValue.arr xs) := by
  have h1 := List.sizeOf_lt_of_mem h
  have h2 : sizeOf (JsValue.arr xs) = 1 + sizeOf xs := by simp
  omega

theorem sizeOf_mem_obj {kv : String × JsValue} {kvs : List (String × JsValue)}
    (h : kv ∈ kvs) : sizeOf kv.2 < sizeOf (JsValue.obj kvs) := by
  have h1 := List.sizeOf_lt_of_mem h
  have h2 : sizeOf (JsValue.obj kvs) = 1 + sizeOf kvs := by simp
  have h3 : sizeOf kv = 1 + sizeOf kv.1 + sizeOf kv.2 := by
    obtain ⟨a, b⟩ := kv
    rfl
  omega

theorem jsValue_sizeOf_pos (v : JsValue) : 0 < sizeOf v := by
  cases v <;> simp <;> omega

theorem isSentinel_false_parts {k : String} (h : isSentinel k = false) :
    k ≠ "_attributes" ∧ k ≠ "_text" ∧ k ≠ "_declaration" := by
  simp only [isSentinel, Bool.or_eq_false_iff, decide_eq_false_iff_not] at h
  tauto

/-- Hazard-free inputs normalize to sentinel-free outputs (strong
induction on size). -/
theorem normalize_csk_aux :
    ∀ (n : Nat) (v : JsValue), sizeOf v ≤ n → hazardFree v = true →
      ∀ p, containsSentinelKey (normalizeXmlJs p v) = false := by
  intro n
  induction n with
  | zero =>
      intro v hs
      exact absurd hs (by have := jsValue_sizeOf_pos v; omega)
  | succ n ih =>
      intro v hs hf p
      cases v with
      | str s => rfl
      | num m => rfl
      | bool b => rfl
      | null => rfl
      | undef => rfl
      | arr xs =>
          rw [show normalizeXmlJs p (JsValue.arr xs) = .arr (normArray p xs) from rfl]
          rw [show containsSentinelKey (JsValue.arr (normArray p xs)) =
            cskList (normArray p xs) from rfl]
          rw [normArray_eq_map, cskList_eq_false]
          intro y hy
          rcases List.mem_map.mp hy with ⟨x, hx, he⟩
          subst he
          have hszx : sizeOf x ≤ n := by
            have := sizeOf_mem_arr hx
            omega
          have hfx : hazardFree x = true :=
            (hfList_eq_true xs).mp hf x hx
          exact ih x hszx hfx p
      | obj kvs =>
          have hffields : hfFields kvs = true := hf
          by_cases ht : kvs.map Prod.fst = ["_text"]
          · obtain ⟨v', hkvs⟩ := map_fst_singleton_text ht
            subst hkvs
            have hstr : v'.isStr = true := by
              have := (hfFields_eq_true _).mp hffields ("_text", v')
                (List.mem_cons_self _ _)
              simpa [hfField] using this
            rw [show normalizeXmlJs p (JsValue.obj [("_text", v')]) =
              jsMember [("_text", v')] "_text" from by rw [normalizeXmlJs, if_pos ht]]
            rw [show jsMember [("_text", v')] "_text" = v' from by
              rw [jsMember, if_pos rfl]]
            exact isStr_csk hstr
          · rw [show normalizeXmlJs p (JsValue.obj kvs) =
                .obj (childLoop p (attrInit p kvs) kvs) from by
                rw [normalizeXmlJs, if_neg ht]]
            rw [show containsSentinelKey
                (JsValue.obj (childLoop p (attrInit p kvs) kvs)) =
              cskFields (childLoop p (attrInit p kvs) kvs) from rfl]
            refine childLoop_csk p kvs _ ?_ (attrInit_csk p kvs hffields)
            intro kv hm hsent
            have hszv : sizeOf kv.2 ≤ n := by
              have := sizeOf_mem_obj hm
              omega
            have hne := isSentinel_false_parts hsent
            have hfv : hazardFree kv.2 = true := by
              have := (hfFields_eq_true kvs).mp hffields kv hm
              rw [hfField, if_neg hne.2.1, if_neg hne.1, if_neg hne.2.2] at this
              exact this
            exact ih kv.2 hszv hfv p

/-- Hazard-free inputs normalize to outputs with pairwise-distinct
object keys everywhere (strong induction on size). -/
theorem normalize_ndk_aux :
    ∀ (n : Nat) (v : JsValue), sizeOf v ≤ n → hazardFree v = true →
      ∀ p, nodupKeys (normalizeXmlJs p v) = true := by
  intro n
  induction n with
  | zero =>
      intro v hs
      exact absurd hs (by have := jsValue_sizeOf_pos v; omega)
  | succ n ih =>
      intro v hs hf p
      cases v with
      | str s => rfl
      | num m => rfl
      | bool b => rfl
      | null => rfl
      | undef => rfl
      | arr xs =>
          rw [show normalizeXmlJs p (JsValue.arr xs) = .arr (normArray p xs) from rfl]
          rw [show nodupKeys (JsValue.arr (normArray p xs)) =
            ndkList (normArray p xs) from rfl]
          rw [normArray_eq_map, ndkList_eq_true]
          intro y hy
          rcases List.mem_map.mp hy with ⟨x, hx, he⟩
          subst he
          have hszx : sizeOf x ≤ n := by
            have := sizeOf_mem_arr hx
            omega
          exact ih x hszx ((hfList_eq_true xs).mp hf x hx) p
      | obj kvs =>
          have hffields : hfFields kvs = true := hf
          by_cases ht : kvs.map Prod.fst = ["_text"]
          · obtain ⟨v', hkvs⟩ := map_fst_singleton_text ht
            subst hkvs
            have hstr : v'.isStr = true := by
              have := (hfFields_eq_true _).mp hffields ("_text", v')
                (List.mem_cons_self _ _)
              simpa [hfField] using this
            rw [show normalizeXmlJs p (JsValue.obj [("_text", v')]) =
              jsMember [("_text", v')] "_text" from by rw [normalizeXmlJs, if_pos ht]]
            rw [show jsMember [("_text", v')] "_text" = v' from by
              rw [jsMember, if_pos rfl]]
            exact isStr_ndk hstr
          · rw [show normalizeXmlJs p (JsValue.obj kvs) =
                .obj (childLoop p (attrInit p kvs) kvs) from by
                rw [normalizeXmlJs, if_neg ht]]
            rw [show nodupKeys (JsValue.obj (childLoop p (attrInit p kvs) kvs)) =
              ndkFields (childLoop p (attrInit p kvs) kvs) from rfl]
            refine childLoop_ndk p kvs _ ?_ (attrInit_ndk p kvs hffields)
            intro kv hm hsent
            have hszv : sizeOf kv.2 ≤ n := by
              have := sizeOf_mem_obj hm
              omega
            have hne := isSentinel_false_parts hsent
            have hfv : hazardFree kv.2 = true := by
              have := (hfFields_eq_true kvs).mp hffields kv hm
              rw [hfField, if_neg hne.2.1, if_neg hne.1, if_neg hne.2.2] at this
              exact this
            exact ih kv.2 hszv hfv p

/-- `normalizeXmlJs` is the identity on sentinel-free values with
pairwise-distinct object keys (strong induction on size). -/
theorem normalize_id_aux :
    ∀ (n : Nat) (v : JsValue), sizeOf v ≤ n → containsSentinelKey v = false →
      nodupKeys v = true → ∀ p, normalizeXmlJs p v = v := by
  intro n
  induction n with
  | zero =>
      intro v hs
      exact absurd hs (by have := jsValue_sizeOf_pos v; omega)
  | succ n ih =>
      intro v hs hcsk hndk p
      cases v with
      | str s => rfl
      | num m => rfl
      | bool b => rfl
      | null => rfl
      | undef => rfl
      | arr xs =>
          rw [show normalizeXmlJs p (JsValue.arr xs) = .arr (normArray p xs) from rfl,
            normArray_eq_map]
          have hcsk' : cskList xs = false := hcsk
          have hndk' : ndkList xs = true := hndk
          have hpt : ∀ x ∈ xs, normalizeXmlJs p x = x := fun x hx =>
            ih x (by have := sizeOf_mem_arr hx; omega)
              ((cskList_eq_false xs).mp hcsk' x hx)
              ((ndkList_eq_true xs).mp hndk' x hx) p
          rw [List.map_congr_left hpt]
          simp
      | obj kvs =>
          have hcskf : cskFields kvs = false := hcsk
          have hndkf : ndkFields kvs = true := hndk
          have hnosent : ∀ kv ∈ kvs, isSentinel kv.1 = false :=
            fun kv hm => ((cskFields_eq_false kvs).mp hcskf kv hm).1
          have ht : kvs.map Prod.fst ≠ ["_text"] := by
            intro he
            obtain ⟨v', hkvs⟩ := map_fst_singleton_text he
            subst hkvs
            have := hnosent ("_text", v') (List.mem_cons_self _ _)
            simp [isSentinel] at this
          rw [show normalizeXmlJs p (JsValue.obj kvs) =
              .obj (childLoop p (attrInit p kvs) kvs) from by
              rw [normalizeXmlJs, if_neg ht]]
          have hattr : attrInit p kvs = [] := by
            have hmem : jsMember kvs "_attributes" = .undef :=
              jsMember_eq_undef_of_no_key kvs _ (fun kv hm he => by
                have := hnosent kv hm
                rw [he] at this
                simp [isSentinel] at this)
            rw [attrInit, hmem]
          rw [hattr]
          have hfilter : kvs.filter (fun kv => !isSentinel kv.1) = kvs :=
            List.filter_eq_self.mpr (fun kv hm => by simp [hnosent kv hm])
          rw [childLoop_append p kvs [] (by rw [hfilter]; exact ((ndkFields_iff kvs).mp hndkf).1)
            (fun kv _ _ kv2 hm2 => absurd hm2 (List.not_mem_nil kv2))]
          rw [hfilter, List.nil_append]
          have hpt : ∀ kv ∈ kvs, (kv.1, normalizeXmlJs p kv.2) = kv := by
            intro kv hm
            have hv := ih kv.2 (by have := sizeOf_mem_obj hm; omega)
              ((cskFields_eq_false kvs).mp hcskf kv hm).2
              (((ndkFields_iff kvs).mp hndkf).2 kv hm) p
            obtain ⟨k1, v1⟩ := kv
            simpa using hv
          rw [List.map_congr_left hpt]
          simp

/-! ## Claim C2 -/

/-- C2 counterexample: sentinel keys can appear in the output.  The
element `<a text="x"/>` — compact node `{_attributes: {text: "x"}}` —
normalizes with default prefixing to `{_text: "x"}`: the attribute named
`text` is prefixed into the sentinel key `_text`, which therefore occurs
in the normalized output. -/
theorem normalize_sentinel_keys_counterexample :
    normalizeXmlJs true (.obj [("_attributes", .obj [("text", .str "x")])]) =
      .obj [("_text", .str "x")] ∧
    containsSentinelKey (normalizeXmlJs true
      (.obj [("_attributes", .obj [("text", .str "x")])])) = true :=
  ⟨rfl, rfl⟩

/-- C2 amended: for every input tree free of sentinel hazards — every
`_text` field holds a string, every `_attributes` field is a
string-valued attribute map none of whose keys is a sentinel either bare
or after underscore-prefixing — the normalized output contains none of
the sentinel keys `_attributes`, `_text`, `_declaration` at any depth
(in particular declarations never appear as output keys). -/
theorem normalize_no_sentinel_keys (p : Bool) (v : JsValue)
    (h : hazardFree v = true) :
    containsSentinelKey (normalizeXmlJs p v) = false :=
  normalize_csk_aux (sizeOf v) v le_rfl h p

/-- Witness for the amended C2 on the compact node of
`<?xml version="1.0"?><r><a id="1"><b>t</b></a></r>`. -/
theorem normalize_no_sentinel_keys_witness :
    hazardFree (JsValue.obj [("_declaration",
        .obj [("_attributes", .obj [("version", .str "1.0")])]),
      ("r", .obj [("a", .obj [("_attributes", .obj [("id", .str "1")]),
        ("b", .obj [("_text", .str "t")])])])]) = true ∧
    containsSentinelKey (normalizeXmlJs true (JsValue.obj [("_declaration",
        .obj [("_attributes", .obj [("version", .str "1.0")])]),
      ("r", .obj [("a", .obj [("_attributes", .obj [("id", .str "1")]),
        ("b", .obj [("_text", .str "t")])])])])) = false :=
  ⟨rfl, normalize_no_sentinel_keys true _ rfl⟩

/-! ## Claim C9 -/

/-- C9 counterexample: normalization is not idempotent on all inputs.
The compact node `{_attributes: {text: "x"}}` normalizes to
`{_text: "x"}`, and normalizing that output again flattens it to the
bare string `"x"`, so `normalize (normalize node) ≠ normalize node`. -/
theorem normalize_idempotent_counterexample :
    normalizeXmlJs true (normalizeXmlJs true
        (.obj [("_attributes", .obj [("text", .str "x")])])) ≠
      normalizeXmlJs true (.obj [("_attributes", .obj [("text", .str "x")])]) := by
  intro h
  have h' : JsValue.str "x" = JsValue.obj [("_text", JsValue.str "x")] := h
  exact JsValue.noConfusion h'

/-- C9 amended: on every input tree free of sentinel hazards (text
fields are strings; attribute maps are string-valued with keys that are
not sentinels, bare or prefixed), normalization is idempotent:
`normalize (normalize node) = normalize node` for fixed options. -/
theorem normalize_idempotent (p : Bool) (v : JsValue)
    (h : hazardFree v = true) :
    normalizeXmlJs p (normalizeXmlJs p v) = normalizeXmlJs p v :=
  normalize_id_aux (sizeOf (normalizeXmlJs p v)) _ le_rfl
    (normalize_csk_aux (sizeOf v) v le_rfl h p)
    (normalize_ndk_aux (sizeOf v) v le_rfl h p) p

/-- Witness for the amended C9 on the compact node of
`<a id="1"><b>t</b></a>`. -/
theorem normalize_idempotent_witness :
    hazardFree (JsValue.obj [("a", .obj [("_attributes", .obj [("id", .str "1")]),
      ("b", .obj [("_text", .str "t")])])]) = true ∧
    normalizeXmlJs true (normalizeXmlJs true
        (JsValue.obj [("a", .obj [("_attributes", .obj [("id", .str "1")]),
          ("b", .obj [("_text", .str "t")])])])) =
      normalizeXmlJs true
        (JsValue.obj [("a", .obj [("_attributes", .obj [("id", .str "1")]),
          ("b", .obj [("_text", .str "t")])])]) :=
  ⟨rfl, normalize_idempotent true _ rfl⟩

/-! ## Whitespace-stripping lemmas (for C8) -/

theorem newline_false (d : Nat) : newline false d = [] := rfl

theorem stripAux_keep (c : Char) (l : List Char) (h1 : c ≠ '"')
    (h2 : ¬(c = ' ' ∨ c = '\n' ∨ c = '\t' ∨ c = '\r')) :
    stripAux false false (c :: l) = c :: stripAux false false l := by
  rw [stripAux, if_neg h1, if_neg h2]

theorem stripAux_replicate_space (n : Nat) (l : List Char) :
    stripAux false false (List.replicate n ' ' ++ l) = stripAux false false l := by
  induction n with
  | zero => rfl
  | succ n ih =>
      rw [List.replicate_succ, List.cons_append, stripAux]
      simpa using ih

theorem stripAux_newline (g : Bool) (d : Nat) (l : List Char) :
    stripAux false false (newline g d ++ l) = stripAux false false l := by
  cases g
  · rfl
  · show stripAux false false (('\n' :: List.replicate (2 * d) ' ') ++ l) = _
    rw [List.cons_append, stripAux]
    simpa using stripAux_replicate_space (2 * d) l

theorem hexDigit_ne (n : Nat) (h : n < 16) :
    hexDigit n ≠ '"' ∧ hexDigit n ≠ '\\' := by
  interval_cases n <;> exact ⟨by decide, by decide⟩

theorem stripAux_escChar (c : Char) (l : List Char) :
    stripAux true false (escChar c ++ l) = escChar c ++ stripAux true false l := by
  rw [escChar]
  by_cases h1 : c = '"'
  · rw [if_pos h1]
    rw [List.cons_append, List.cons_append, stripAux, if_pos rfl, stripAux]
    rfl
  · rw [if_neg h1]
    by_cases h2 : c = '\\'
    · rw [if_pos h2]
      rw [List.cons_append, List.cons_append, stripAux, if_pos rfl, stripAux]
      rfl
    · rw [if_neg h2]
      by_cases h3 : c = '\x08'
      · rw [if_pos h3]
        rw [List.cons_append, List.cons_append, stripAux, if_pos rfl, stripAux]
        rfl
      · rw [if_neg h3]
        by_cases h4 : c = '\t'
        · rw [if_pos h4]
          rw [List.cons_append, List.cons_append, stripAux, if_pos rfl, stripAux]
          rfl
        · rw [if_neg h4]
          by_cases h5 : c = '\n'
          · rw [if_pos h5]
            rw [List.cons_append, List.cons_append, stripAux, if_pos rfl, stripAux]
            rfl
          · rw [if_neg h5]
            by_cases h6 : c = '\x0c'
            · rw [if_pos h6]
              rw [List.cons_append, List.cons_append, stripAux, if_pos rfl, stripAux]
              rfl
            · rw [if_neg h6]
              by_cases h7 : c = '\r'
              · rw [if_pos h7]
                rw [List.cons_append, List.cons_append, stripAux, if_pos rfl,
                  stripAux]
                rfl
              · rw [if_neg h7]
                by_cases h8 : c.toNat < 32
                · rw [if_pos h8]
                  have ha := hexDigit_ne (c.toNat / 16) (by omega)
                  have hb := hexDigit_ne (c.toNat % 16) (by omega)
                  simp only [List.cons_append]
                  rw [stripAux, if_pos rfl, stripAux]
                  rw [stripAux, if_neg (by decide), if_neg (by decide)]
                  rw [stripAux, if_neg (by decide), if_neg (by decide)]
                  rw [stripAux, if_neg ha.2, if_neg ha.1]
                  rw [stripAux, if_neg hb.2, if_neg hb.1]
                  simp
                · rw [if_neg h8]
                  rw [List.cons_append, stripAux, if_neg h2, if_neg h1]
                  simp

theorem stripAux_escList (cs l : List Char) :
    stripAux true false (escList cs ++ l) = escList cs ++ stripAux true false l := by
  induction cs with
  | nil => rfl
  | cons c cs ih =>
      rw [escList, List.append_assoc, stripAux_escChar, ih, List.append_assoc]

theorem stripAux_quoteString (s : String) (l : List Char) :
    stripAux false false (quoteString s ++ l) =
      quoteString s ++ stripAux false false l := by
  rw [quoteString, List.cons_append, stripAux, if_pos rfl]
  rw [List.append_assoc, List.singleton_append, stripAux_escList]
  rw [show stripAux true false ('"' :: l) = '"' :: stripAux false false l from by
    rw [stripAux, if_neg (by decide), if_pos rfl]]
  simp

theorem isNormListB_eq_true (l : List JsValue) :
    isNormListB l = true ↔ ∀ x ∈ l, IsNormalizedB x = true := by
  induction l with
  | nil => simp [isNormListB]
  | cons x t ih => simp [isNormListB, ih]

theorem isNormFieldsB_eq_true (l : List (String × JsValue)) :
    isNormFieldsB l = true ↔ ∀ kv ∈ l, IsNormalizedB kv.2 = true := by
  induction l with
  | nil => simp [isNormFieldsB]
  | cons kv t ih => simp [isNormFieldsB, ih]

/-- Stripping a member, given the property for the member's value. -/
theorem strip_member_aux (kv : String × JsValue)
    (hv : ∀ g d d' l, stripAux false false (serializeVal g d kv.2 ++ l) =
      serializeVal false d' kv.2 ++ stripAux false false l) :
    ∀ g d d' l, stripAux false false (serializeMember g d kv ++ l) =
      serializeMember false d' kv ++ stripAux false false l := by
  intro g d d' l
  rw [serializeMember, serializeMember]
  cases g
  · simp only [List.append_assoc, Bool.false_eq_true, if_false]
    rw [stripAux_quoteString]
    rw [show ([':'] : List Char) ++ (serializeVal false d kv.2 ++ l) =
      ':' :: (serializeVal false d kv.2 ++ l) from by simp]
    rw [stripAux_keep ':' _ (by decide) (by decide), hv false d d']
    simp
  · simp only [List.append_assoc, if_true, Bool.false_eq_true, if_false]
    rw [stripAux_quoteString]
    rw [show ([':', ' '] : List Char) ++ (serializeVal true d kv.2 ++ l) =
      ':' :: (' ' :: (serializeVal true d kv.2 ++ l)) from by simp]
    rw [stripAux_keep ':' _ (by decide) (by decide)]
    rw [show stripAux false false (' ' :: (serializeVal true d kv.2 ++ l)) =
      stripAux false false (serializeVal true d kv.2 ++ l) from by
      rw [stripAux, if_neg (by decide), if_pos (by simp)]]
    rw [hv true d d']
    simp

/-- Stripping an array tail, given the property for each element. -/
theorem strip_arrTail_aux (xs : List JsValue) :
    (∀ x ∈ xs, ∀ g d d' l,
      stripAux false false (serializeVal g d x ++ l) =
        serializeVal false d' x ++ stripAux false false l) →
    ∀ g d d' l, stripAux false false (serializeArrTail g d xs ++ l) =
      serializeArrTail false d' xs ++ stripAux false false l := by
  induction xs with
  | nil => intro _ g d d' l; rfl
  | cons x xs ih =>
      intro hmem g d d' l
      rw [serializeArrTail, serializeArrTail]
      simp only [newline_false, List.nil_append, List.append_assoc,
        List.cons_append]
      rw [stripAux_keep ',' _ (by decide) (by decide)]
      rw [stripAux_newline]
      rw [hmem x (List.mem_cons_self x xs) g d d']
      rw [ih (fun x2 hm => hmem x2 (List.mem_cons_of_mem x hm)) g d d']

/-- Stripping an object tail, given the property for each member value. -/
theorem strip_objTail_aux (kvs : List (String × JsValue)) :
    (∀ kv ∈ kvs, ∀ g d d' l,
      stripAux false false (serializeVal g d kv.2 ++ l) =
        serializeVal false d' kv.2 ++ stripAux false false l) →
    ∀ g d d' l, stripAux false false (serializeObjTail g d kvs ++ l) =
      serializeObjTail false d' kvs ++ stripAux false false l := by
  induction kvs with
  | nil => intro _ g d d' l; rfl
  | cons kv kvs ih =>
      intro hmem g d d' l
      rw [serializeObjTail, serializeObjTail]
      simp only [newline_false, List.nil_append, List.append_assoc,
        List.cons_append]
      rw [stripAux_keep ',' _ (by decide) (by decide)]
      rw [stripAux_newline]
      rw [strip_member_aux kv (hmem kv (List.mem_cons_self kv kvs)) g d d']
      rw [ih (fun kv2 hm => hmem kv2 (List.mem_cons_of_mem kv hm)) g d d']

/-- Main stripping lemma: on the spec's `NormalizedValue` domain, the
pretty serialization strips (by discarding inter-token whitespace) to
exactly the compact serialization, at any indentation depths. -/
theorem strip_serialize_aux :
    ∀ (n : Nat) (v : JsValue), sizeOf v ≤ n → IsNormalizedB v = true →
      ∀ g d d' l, stripAux false false (serializeVal g d v ++ l) =
        serializeVal false d' v ++ stripAux false false l := by
  intro n
  induction n with
  | zero =>
      intro v hs
      exact absurd hs (by have := jsValue_sizeOf_pos v; omega)
  | succ n ih =>
      intro v hs hnorm g d d' l
      cases v with
      | str s =>
          rw [show serializeVal g d (JsValue.str s) = quoteString s from rfl,
            show serializeVal false d' (JsValue.str s) = quoteString s from rfl,
            stripAux_quoteString]
      | num m => simp [IsNormalizedB] at hnorm
      | bool b => simp [IsNormalizedB] at hnorm
      | null => simp [IsNormalizedB] at hnorm
      | undef => simp [IsNormalizedB] at hnorm
      | arr xs =>
          cases xs with
          | nil =>
              rw [show serializeVal g d (JsValue.arr []) = ['[', ']'] from rfl,
                show serializeVal false d' (JsValue.arr []) = ['[', ']'] from rfl]
              rw [show (['[', ']'] : List Char) ++ l = '[' :: (']' :: l) from by simp]
              rw [stripAux_keep '[' _ (by decide) (by decide),
                stripAux_keep ']' _ (by decide) (by decide)]
              simp
          | cons x xs =>
              have hlist : isNormListB (x :: xs) = true := hnorm
              have hnx : IsNormalizedB x = true :=
                (isNormListB_eq_true (x :: xs)).mp hlist x (List.mem_cons_self x xs)
              have hszx : sizeOf x ≤ n := by
                have := sizeOf_mem_arr (List.mem_cons_self x xs)
                omega
              rw [show serializeVal g d (JsValue.arr (x :: xs)) =
                '[' :: (newline g (d+1) ++ serializeVal g (d+1) x ++
                  serializeArrTail g (d+1) xs ++ newline g d ++ [']']) from rfl]
              rw [show serializeVal false d' (JsValue.arr (x :: xs)) =
                '[' :: (newline false (d'+1) ++ serializeVal false (d'+1) x ++
                  serializeArrTail false (d'+1) xs ++ newline false d' ++ [']'])
                from rfl]
              simp only [newline_false, List.nil_append, List.append_assoc,
                List.cons_append, List.singleton_append]
              rw [stripAux_keep '[' _ (by decide) (by decide)]
              rw [stripAux_newline]
              rw [ih x hszx hnx g (d+1) (d'+1)]
              rw [strip_arrTail_aux xs (fun x2 hm => ih x2
                (by have := sizeOf_mem_arr (List.mem_cons_of_mem x hm); omega)
                ((isNormListB_eq_true (x :: xs)).mp hlist x2
                  (List.mem_cons_of_mem x hm))) g (d+1) (d'+1)]
              rw [stripAux_newline]
              rw [stripAux_keep ']' _ (by decide) (by decide)]
      | obj kvs =>
          cases kvs with
          | nil =>
              rw [show serializeVal g d (JsValue.obj []) = ['\x7b', '\x7d'] from rfl,
                show serializeVal false d' (JsValue.obj []) = ['\x7b', '\x7d']
                from rfl]
              rw [show (['\x7b', '\x7d'] : List Char) ++ l =
                '\x7b' :: ('\x7d' :: l) from by simp]
              rw [stripAux_keep '\x7b' _ (by decide) (by decide),
                stripAux_keep '\x7d' _ (by decide) (by decide)]
              simp
          | cons kv kvs =>
              have hlist : isNormFieldsB (kv :: kvs) = true := hnorm
              have hnx : IsNormalizedB kv.2 = true :=
                (isNormFieldsB_eq_true (kv :: kvs)).mp hlist kv
                  (List.mem_cons_self kv kvs)
              have hszx : sizeOf kv.2 ≤ n := by
                have := sizeOf_mem_obj (List.mem_cons_self kv kvs)
                omega
              rw [show serializeVal g d (JsValue.obj (kv :: kvs)) =
                '\x7b' :: (newline g (d+1) ++ serializeMember g (d+1) kv ++
                  serializeObjTail g (d+1) kvs ++ newline g d ++ ['\x7d']) from rfl]
              rw [show serializeVal false d' (JsValue.obj (kv :: kvs)) =
                '\x7b' :: (newline false (d'+1) ++ serializeMember false (d'+1) kv ++
                  serializeObjTail false (d'+1) kvs ++ newline false d' ++ ['\x7d'])
                from rfl]
              simp only [newline_false, List.nil_append, List.append_assoc,
                List.cons_append, List.singleton_append]
              rw [stripAux_keep '\x7b' _ (by decide) (by decide)]
              rw [stripAux_newline]
              rw [strip_member_aux kv (fun g2 d2 d2' l2 =>
                ih kv.2 hszx hnx g2 d2 d2' l2) g (d+1) (d'+1)]
              rw [strip_objTail_aux kvs (fun kv2 hm => ih kv2.2
                (by have := sizeOf_mem_obj (List.mem_cons_of_mem kv hm); omega)
                ((isNormFieldsB_eq_true (kv :: kvs)).mp hlist kv2
                  (List.mem_cons_of_mem kv hm))) g (d+1) (d'+1)]
              rw [stripAux_newline]
              rw [stripAux_keep '\x7d' _ (by decide) (by decide)]

/-- On the `NormalizedValue` domain, stripping inter-token whitespace
from any serialization yields exactly the compact serialization. -/
theorem strip_serialize (v : JsValue) (h : IsNormalizedB v = true) (g : Bool) :
    stripJsonWs (serialize v g) = serialize v false := by
  have hmain := strip_serialize_aux (sizeOf v) v le_rfl h g 0 0 []
  rw [List.append_nil, show stripAux false false [] = [] from rfl,
    List.append_nil] at hmain
  rw [stripJsonWs, serialize, serialize]
  exact congrArg String.mk hmain

/-! ## Claim C8 -/

/-- C8: for every `NormalizedValue` (a string, array or object — the
spec's output domain), serializing with `pretty = false` and re-parsing
as JSON yields a value deep-equal to serializing with `pretty = true`
and re-parsing: the two serializations differ only in inter-token
whitespace, so the parses coincide — indentation is cosmetic and
performs no semantic transformation. -/
theorem serialize_reparse_pretty_eq_compact (v : JsValue)
    (h : IsNormalizedB v = true) :
    jsonParse (serialize v true) = jsonParse (serialize v false) := by
  rw [jsonParse, jsonParse, strip_serialize v h true, strip_serialize v h false]

/-- Witness for C8 on `{"a": ["x", "y"]}`; the common parse result is
the original value, computed on both serializations. -/
theorem serialize_reparse_witness :
    IsNormalizedB (JsValue.obj [("a", .arr [.str "x", .str "y"])]) = true ∧
    jsonParse (serialize (JsValue.obj [("a", .arr [.str "x", .str "y"])]) true) =
      jsonParse (serialize (JsValue.obj [("a", .arr [.str "x", .str "y"])]) false) ∧
    jsonParse (serialize (JsValue.obj [("a", .arr [.str "x", .str "y"])]) false) =
      some (JsValue.obj [("a", .arr [.str "x", .str "y"])]) :=
  ⟨rfl, serialize_reparse_pretty_eq_compact _ rfl, rfl⟩
